import Mathlib

/-!
# Verification of the local-code-search indexing core

A shallow embedding of the `katis/local-code-search` repository:

* `src/embeddings/code_splitter.rs` — the recursive size-bounded chunker
  (`CodeSplitter`, `Chunk`, `TextPosition`).
* `src/embeddings/project_files.rs` — per-file indexer state
  (`ProjectFile`), project scan (`ProjectFiles::new`), response hydration
  (`chunks_to_response`).
* `src/embeddings/project_repository.rs` — the in-memory vector store
  (`insert_file`, `search`) over SQLite tables.
* `src/embeddings/project_service.rs` — the per-project actor's
  `search_code` / `file_updated` handlers.

Source text is modelled as a list of bytes (`List Nat`); character counts
are modelled as in Rust's `str::chars().count()` by counting bytes that are
not UTF-8 continuation bytes.  Fallible operations return `Except`; Rust
panics are modelled by a dedicated outcome constructor.  External
collaborators (the tree-sitter parser, the Blake2b hash, the fastembed
model, the directory walker) are passed in as explicit function parameters,
since the repository treats them as opaque oracles.
-/

namespace LocalCodeSearch

/-! # Part 1: definitions (shallow embedding of the source) -/

/-! ## Bytes, character counts and slices -/

/-- A byte `b` of a UTF-8 string is a continuation byte iff `0x80 ≤ b < 0xC0`.
Rust's `str::is_char_boundary` / `chars().count()` are defined in terms of
this predicate. -/
def isContinuationByte (b : Nat) : Bool := 128 ≤ b && b < 192

/-- Number of characters of a UTF-8 byte string, as computed by Rust's
`s.chars().count()`: the number of non-continuation bytes. -/
def charCount (s : List Nat) : Nat := (s.filter (fun b => !isContinuationByte b)).length

/-- The byte slice `s[a..b]` (total: truncates instead of panicking; the
panicking checked variant used by `chunks_to_response` is `sliceChecked`). -/
def listSlice (s : List Nat) (a b : Nat) : List Nat := (s.drop a).take (b - a)

/-! ## `TextPosition` (code_splitter.rs)

`#[derive(Ord)]` on `TextPosition { row, column }` gives the lexicographic
order on `(row, column)`; `Ord::min`/`Ord::max` return the second argument
when the comparison finds the values equal. -/

structure TextPosition where
  row : Nat
  column : Nat
deriving DecidableEq, Repr

/-- Lexicographic `≤` on `(row, column)`, as derived by Rust's
`#[derive(PartialOrd, Ord)]` (fields compared in declaration order). -/
def TextPosition.leB (p q : TextPosition) : Bool :=
  decide (p.row < q.row ∨ (p.row = q.row ∧ p.column ≤ q.column))

/-- Rust `Ord::min`: the smaller value, the first argument on ties. -/
def TextPosition.minP (p q : TextPosition) : TextPosition :=
  if p.leB q then p else q

/-- Rust `Ord::max`: the larger value, the second argument on ties. -/
def TextPosition.maxP (p q : TextPosition) : TextPosition :=
  if p.leB q then q else p

/-! ## `Chunk` (code_splitter.rs) -/

/-- A half-open byte range `start..stop` (Rust `Range<usize>`; `stop` is the
field Rust calls `end`, which is a reserved word in Lean). -/
structure BRange where
  start : Nat
  stop : Nat
deriving DecidableEq, Repr

/-- `code_splitter::Chunk`: a borrowed span of the source.  `text` is the
byte slice `source[range]`; `start`/`endPos` are the row/column positions
(Rust fields `start` / `end`). -/
structure Chunk where
  text : List Nat
  range : BRange
  start : TextPosition
  endPos : TextPosition
deriving DecidableEq, Repr

/-- `Chunk::default()`: empty text, `0..0`, zero positions. -/
def defaultChunk : Chunk := ⟨[], ⟨0, 0⟩, ⟨0, 0⟩, ⟨0, 0⟩⟩

/-- `Range::is_empty`: `!(start < end)`. -/
def Chunk.isEmptyC (c : Chunk) : Bool := !(c.range.start < c.range.stop)

/-- `Chunk::merge`: span from `self.range.start` to `other.range.end`,
positions combined with `min`/`max`. -/
def Chunk.merge (self other : Chunk) (source : List Nat) : Chunk :=
  { text := listSlice source self.range.start other.range.stop
    range := ⟨self.range.start, other.range.stop⟩
    start := self.start.minP other.start
    endPos := self.endPos.maxP other.endPos }

/-- `Chunk::merge_end`: span from `self.range.end` to `other.range.end`
(absorbing whatever separates the two chunks), positions combined with
`min`/`max`. -/
def Chunk.mergeEnd (self other : Chunk) (source : List Nat) : Chunk :=
  { text := listSlice source self.range.stop other.range.stop
    range := ⟨self.range.stop, other.range.stop⟩
    start := self.start.minP other.start
    endPos := self.endPos.maxP other.endPos }

/-! ## Parse trees

A tree-sitter `Node` is modelled by its byte span, its point span and its
ordered child list. -/

inductive STree : Type where
  | node (startByte endByte : Nat) (startPoint endPoint : TextPosition)
      (children : List STree) : STree
deriving Repr

def STree.startByte : STree → Nat
  | .node s _ _ _ _ => s

def STree.endByte : STree → Nat
  | .node _ e _ _ _ => e

def STree.startPoint : STree → TextPosition
  | .node _ _ p _ _ => p

def STree.endPoint : STree → TextPosition
  | .node _ _ _ q _ => q

def STree.children : STree → List STree
  | .node _ _ _ _ cs => cs

/-- `Chunk::from_node`: the chunk covering exactly one node's span. -/
def Chunk.fromNode (source : List Nat) (n : STree) : Chunk :=
  { text := listSlice source n.startByte n.endByte
    range := ⟨n.startByte, n.endByte⟩
    start := n.startPoint
    endPos := n.endPoint }

/-! ## The chunker (`CodeSplitter::process_chunks`) -/

/-- Pushing the accumulator at a flush point: `if !chunk.is_empty() { chunks.push(chunk) }`. -/
def flushChunk : Option Chunk → List Chunk
  | none => []
  | some c => if c.isEmptyC then [] else [c]

/-- `CodeSplitter::chunk_size`: `self.source[range].chars().count()`. -/
def chunkSizeR (source : List Nat) (r : BRange) : Nat :=
  charCount (listSlice source r.start r.stop)

/-- `current_chunk.as_ref().map(|c| chunk_size(c.range)).unwrap_or(0)`. -/
def curSize (source : List Nat) : Option Chunk → Nat
  | none => 0
  | some c => chunkSizeR source c.range

/-- The loop body of `CodeSplitter::process_chunks`, one entry per node:
iterate over `node.children` carrying the accumulator `current_chunk` and
the previous sibling `last`; recurse into children whose *byte* length
exceeds `max_chunk_size`; emit (flush) the accumulator when it would
overflow the *character* budget.  The node itself is represented by its
child list. -/
def processChunksGo (source : List Nat) (maxChunkSize : Nat) :
    Chunk → Option Chunk → List STree → List Chunk
  | _last, cur, [] => flushChunk cur
  | last, cur, child :: rest =>
    if child.endByte - child.startByte > maxChunkSize then
      flushChunk cur
        ++ processChunksGo source maxChunkSize last none child.children
        ++ processChunksGo source maxChunkSize (Chunk.fromNode source child) none rest
    else if curSize source cur + chunkSizeR source ⟨child.startByte, child.endByte⟩
        > maxChunkSize then
      processChunksGo source maxChunkSize (Chunk.fromNode source child)
        (some (Chunk.mergeEnd last (Chunk.fromNode source child) source)) rest
        |> (flushChunk cur ++ ·)
    else
      let newChunk := Chunk.mergeEnd last (Chunk.fromNode source child) source
      let cur' : Option Chunk :=
        match cur with
        | some c => if !c.isEmptyC then some (c.merge newChunk source) else some newChunk
        | none => some newChunk
      processChunksGo source maxChunkSize (Chunk.fromNode source child) cur' rest
termination_by _ _ cs => sizeOf cs
decreasing_by
  all_goals simp_wf
  all_goals first
    | omega
    | (cases child; simp [STree.children]; omega)

/-- `CodeSplitter::chunks`: run the loop on the root node's children with a
default `last` and an empty accumulator. -/
def splitChunks (source : List Nat) (maxChunkSize : Nat) (tree : STree) : List Chunk :=
  processChunksGo source maxChunkSize defaultChunk none tree.children

/-! ### Well-formedness predicates on trees

Real tree-sitter trees list each node's children in source order with byte
spans contained in the parent's span.  `orderedB lo ub cs` states exactly
that for a child list expected between cursor `lo` and bound `ub`.
`tiledB pos cs` is the stronger property that consecutive children abut
exactly (no gap bytes between siblings, the first child starting at `pos`). -/

def orderedB (lo ub : Nat) : List STree → Bool
  | [] => true
  | c :: cs =>
    decide (lo ≤ c.startByte) && decide (c.startByte ≤ c.endByte) &&
      decide (c.endByte ≤ ub) && orderedB c.startByte c.endByte c.children &&
      orderedB c.endByte ub cs
termination_by cs => sizeOf cs
decreasing_by
  all_goals simp_wf
  all_goals first
    | omega
    | (cases c; simp [STree.children]; omega)

def tiledB (pos : Nat) : List STree → Bool
  | [] => true
  | c :: cs =>
    decide (c.startByte = pos) && decide (c.startByte ≤ c.endByte) &&
      tiledB c.startByte c.children && tiledB c.endByte cs
termination_by cs => sizeOf cs
decreasing_by
  all_goals simp_wf
  all_goals first
    | omega
    | (cases c; simp [STree.children]; omega)

/-- The invariant claimed for chunks: `start ≤ end` in byte coordinates and
lexicographically in row/column coordinates. -/
def Chunk.validB (c : Chunk) : Bool :=
  decide (c.range.start ≤ c.range.stop) && c.start.leB c.endPos

/-! ## File-indexer layer (`project_files.rs`)

Paths are modelled as a name plus extension (the only observation the code
makes of a `PathBuf` is `extension()`; `to_string_lossy` is modelled as the
identity embedding, keying the store by the same `Path`).  The filesystem
(`std::fs::read_to_string`), the parser (`Parser::parse`) and Blake2b-512
(`hash_file`) are opaque oracles passed as function parameters. -/

structure Path where
  name : String
  ext : String
deriving DecidableEq, Repr

inductive Language where
  | c | cpp | cs | go | java | json | kt | py | rs | scala | ts | tsx | yaml
deriving DecidableEq, Repr

/-- `ext_to_language` (project_files.rs): recognized extension → grammar. -/
def extToLanguage : String → Option Language
  | "c" => some .c
  | "cpp" => some .cpp
  | "cs" => some .cs
  | "go" => some .go
  | "java" => some .java
  | "json" => some .json
  | "kt" => some .kt
  | "py" => some .py
  | "rs" => some .rs
  | "scala" => some .scala
  | "ts" => some .ts
  | "tsx" => some .tsx
  | "yaml" => some .yaml
  | "yml" => some .yaml
  | _ => none

/-- The `HashSet` admitted by `ProjectFiles::new`. -/
def supportedExtensions : List String :=
  ["rs", "ts", "tsx", "py", "java", "kt", "json", "yaml", "yml"]

inductive FErr where
  | io
  | unsupportedLanguage
  | parseFailed
deriving DecidableEq, Repr

/-- `project_files::ProjectFile` (the FileIndex): path, text, Blake2b hash,
active tree.  The exclusively owned parser is represented by the `parse`
oracle parameter of the operations. -/
structure ProjectFileS where
  path : Path
  text : List Nat
  hash : List Nat
  tree : STree

/-- `ProjectFile::new`: derive the language from the extension, read the
file, parse with no reparse hint, hash the text. -/
def ProjectFile.newM (fs : Path → Option (List Nat))
    (parse : List Nat → Option STree → Option STree)
    (hashFn : List Nat → List Nat) (p : Path) : Except FErr ProjectFileS :=
  match extToLanguage p.ext with
  | none => .error .unsupportedLanguage
  | some _lang =>
    match fs p with
    | none => .error .io
    | some text =>
      match parse text none with
      | none => .error .parseFailed
      | some tree => .ok { path := p, text := text, hash := hashFn text, tree := tree }

/-- `ProjectFile::update`: re-read, re-parse with the previous tree as the
hint, then assign `self.hash` and `self.tree`.  The assignment `self.text`
does not appear in the source, so the old text is kept — this is the
behaviour under scrutiny in claim C1. -/
def ProjectFile.updateM (fs : Path → Option (List Nat))
    (parse : List Nat → Option STree → Option STree)
    (hashFn : List Nat → List Nat) (f : ProjectFileS) : Except FErr ProjectFileS :=
  match fs f.path with
  | none => .error .io
  | some fileContents =>
    match parse fileContents (some f.tree) with
    | none => .error .parseFailed
    | some newTree => .ok { f with hash := hashFn fileContents, tree := newTree }

/-- `ProjectFile::chunks`: delegate to the splitter with the stored tree,
the stored text, and the hard-coded limit 1000. -/
def ProjectFile.chunksM (f : ProjectFileS) : List Chunk :=
  splitChunks f.text 1000 f.tree

/-- One result of the `ignore::Walk` iterator. -/
structure WalkEntry where
  path : Path
  isFile : Bool
deriving DecidableEq, Repr

/-- The file map: an association list standing in for the `HashMap`
(keys unique by construction). -/
def lookupFile (files : List (Path × ProjectFileS)) (p : Path) : Option ProjectFileS :=
  (files.find? (fun e => decide (e.1 = p))).map (fun e => e.2)

/-- `ProjectFiles::new`: walk the root, admit plain files with a supported
extension, and build a `ProjectFile` for each.  Both the walk `?` and the
`ProjectFile::new(path_buf.clone())?` propagate errors, aborting the whole
scan — the behaviour under scrutiny in claim C4. -/
def projectFilesNew (fs : Path → Option (List Nat))
    (parse : List Nat → Option STree → Option STree)
    (hashFn : List Nat → List Nat) :
    List (Except FErr WalkEntry) → Except FErr (List (Path × ProjectFileS))
  | [] => .ok []
  | .error e :: _ => .error e
  | .ok entry :: rest =>
    if entry.isFile && supportedExtensions.contains entry.path.ext then
      match ProjectFile.newM fs parse hashFn entry.path with
      | .error e => .error e
      | .ok f =>
        match projectFilesNew fs parse hashFn rest with
        | .error e => .error e
        | .ok files => .ok ((entry.path, f) :: files)
    else projectFilesNew fs parse hashFn rest

/-- `ProjectFiles::create_or_update`: update in place when the path is
known, otherwise construct and insert. -/
def createOrUpdateM (fs : Path → Option (List Nat))
    (parse : List Nat → Option STree → Option STree)
    (hashFn : List Nat → List Nat) (files : List (Path × ProjectFileS)) (p : Path) :
    Except FErr (List (Path × ProjectFileS)) :=
  match files.find? (fun e => decide (e.1 = p)) with
  | some e =>
    match ProjectFile.updateM fs parse hashFn e.2 with
    | .error err => .error err
    | .ok f => .ok (files.map (fun q => if q.1 = p then (q.1, f) else q))
  | none =>
    match ProjectFile.newM fs parse hashFn p with
    | .error err => .error err
    | .ok f => .ok (files ++ [(p, f)])

/-- `ProjectFiles::file_chunks`: chunks of one file, empty when unknown. -/
def fileChunksM (files : List (Path × ProjectFileS)) (p : Path) : List Chunk :=
  match lookupFile files p with
  | none => []
  | some f => ProjectFile.chunksM f

/-! ## Hydration (`ProjectFiles::chunks_to_response`) -/

/-- `OutputChunk` (project_repository.rs): a stored span retrieved by
`search`. -/
structure OutputChunkS where
  path : Path
  row : BRange
  column : BRange
  byte : BRange
deriving DecidableEq, Repr

/-- `ResponseChunk` (project_files.rs). -/
structure ResponseChunkS where
  path : Path
  row : BRange
  column : BRange
  content : List Nat
deriving DecidableEq, Repr

/-- A Rust panic surfaced by an operation that has no error path. -/
inductive PanicErr where
  | panicked
deriving DecidableEq, Repr

/-- Rust `str::is_char_boundary`. -/
def isCharBoundaryB (s : List Nat) (i : Nat) : Bool :=
  decide (i = 0) || decide (i = s.length) ||
    (match s.get? i with
      | some b => !isContinuationByte b
      | none => false)

/-- Rust string slicing `&text[a..b]`: defined only when `a ≤ b` and both
ends are char boundaries (a boundary index is in particular `≤` the
length); out of range or mid-character it panics. -/
def sliceChecked (s : List Nat) (a b : Nat) : Option (List Nat) :=
  if decide (a ≤ b) && isCharBoundaryB s a && isCharBoundaryB s b then
    some (listSlice s a b)
  else none

/-- `ProjectFiles::chunks_to_response`: for each output chunk, look up the
file (`self.files.get(&chunk.path)?` — a `None` silently drops the span)
and substitute `file.text[chunk.byte.start..chunk.byte.end]` — an unchecked
index that panics when the stored range does not fit the retained text. -/
def chunksToResponse (files : List (Path × ProjectFileS)) :
    List OutputChunkS → Except PanicErr (List ResponseChunkS)
  | [] => .ok []
  | c :: rest =>
    match lookupFile files c.path with
    | none => chunksToResponse files rest
    | some f =>
      match sliceChecked f.text c.byte.start c.byte.stop with
      | none => .error .panicked
      | some content =>
        match chunksToResponse files rest with
        | .error e => .error e
        | .ok out =>
          .ok (({ path := c.path
                  row := c.row
                  column := c.column
                  content := content } : ResponseChunkS) :: out)

/-! ## Vector store (`project_repository.rs`)

The two SQLite tables as in-memory lists; `AUTOINCREMENT` keys as
monotone counters that are never reused (SQLite `AUTOINCREMENT`
semantics); `CURRENT_TIMESTAMP` as the store's `now` field; embeddings as
opaque vectors. -/

/-- An embedding vector (`f32[384]`), opaque to the store. -/
abbrev Emb := List Int

/-- A row of the `files` table. -/
structure FileRow where
  id : Int
  path : Path
  createdAt : Nat
  updatedAt : Nat
deriving DecidableEq, Repr

/-- A row of the `chunks` vec0 virtual table. -/
structure ChunkRow where
  id : Int
  fileId : Int
  startRow : Nat
  startColumn : Nat
  endRow : Nat
  endColumn : Nat
  startByte : Nat
  endByte : Nat
  embeddings : Emb
deriving DecidableEq, Repr

/-- `project_repository::Chunk`: the argument rows of `insert_file`. -/
structure SChunk where
  row : BRange
  column : BRange
  byte : BRange
  content : List Nat
deriving DecidableEq, Repr

structure StoreS where
  files : List FileRow
  chunks : List ChunkRow
  nextFileId : Int
  nextChunkId : Int
  now : Nat
deriving DecidableEq, Repr

inductive EmbErr where
  | embeddingFailed
deriving DecidableEq, Repr

/-- The insert loop `for (chunk, embedding) in chunks.iter().zip(embeddings)`,
assigning consecutive `AUTOINCREMENT` ids. -/
def mkChunkRows (fileId : Int) : Int → List (SChunk × Emb) → List ChunkRow
  | _, [] => []
  | nid, (c, e) :: rest =>
    { id := nid, fileId := fileId, startRow := c.row.start,
      startColumn := c.column.start, endRow := c.row.stop,
      endColumn := c.column.stop, startByte := c.byte.start,
      endByte := c.byte.stop, embeddings := e } :: mkChunkRows fileId (nid + 1) rest

/-- `ProjectRepository::insert_file`: look up the file row by path; if it
exists, delete all its chunk rows and refresh `updated_at`, else insert a
fresh file row; only then embed the chunk contents (fallible) and insert
the new rows.  There is no enclosing transaction: mutations performed
before a failing step persist, which is what claim C2 examines.  The
returned state is the connection's state when the function returns, on the
error path too. -/
def insertFileM (em : List (List Nat) → Except EmbErr (List Emb)) (path : Path)
    (chunks : List SChunk) (s : StoreS) : StoreS × Except EmbErr Int :=
  let step1 : StoreS × Int :=
    match s.files.find? (fun f => decide (f.path = path)) with
    | some prev =>
      ({ s with
          chunks := s.chunks.filter (fun c => decide (c.fileId ≠ prev.id)),
          files := s.files.map (fun f =>
            if f.id = prev.id then { f with updatedAt := s.now } else f) },
        prev.id)
    | none =>
      ({ s with
          files := s.files ++
            [{ id := s.nextFileId, path := path, createdAt := s.now, updatedAt := s.now }],
          nextFileId := s.nextFileId + 1 },
        s.nextFileId)
  match em (chunks.map (fun c => c.content)) with
  | .error e => (step1.1, .error e)
  | .ok embeddings =>
    let rows := mkChunkRows step1.2 step1.1.nextChunkId (chunks.zip embeddings)
    ({ step1.1 with
        chunks := step1.1.chunks ++ rows,
        nextChunkId := step1.1.nextChunkId + rows.length },
      .ok step1.2)

inductive SearchErr where
  | embeddingFailed
  | storeFailed
deriving DecidableEq, Repr

/-- `ProjectRepository::search`: embed the query (fallible), then run the
`MATCH ... ORDER BY distance LIMIT 5` query (fallible); both oracles are
parameters. -/
def repoSearchM (emQ : List Nat → Except SearchErr Emb)
    (dbSearch : Emb → Except SearchErr (List OutputChunkS))
    (query : List Nat) : Except SearchErr (List OutputChunkS) :=
  match emQ query with
  | .error e => .error e
  | .ok v => dbSearch v

/-! ## Per-project service (`project_service.rs`) -/

/-- `RpcError` (rpc.rs). -/
inductive RpcErrorM where
  | tarpc (msg : String)
  | internal (msg : String)
deriving DecidableEq, Repr

/-- The observable outcome of one service handler call: a reply, an error
reply, or a Rust panic (`unwrap` on an `Err`, or an out-of-bounds slice). -/
inductive Outcome (α : Type) where
  | ok (value : α)
  | err (e : RpcErrorM)
  | panicked
deriving DecidableEq, Repr

/-- `ProjectRpc::search_code` for `Arc<Mutex<ProjectService>>`: the source
runs `service.repository.search(&query).unwrap()` — an `Err` from the
search is unwrapped, i.e. the worker panics instead of producing
`RpcError::Internal`; a panic inside hydration propagates likewise. -/
def searchCodeM (files : List (Path × ProjectFileS))
    (search : List Nat → Except SearchErr (List OutputChunkS))
    (query : List Nat) : Outcome (List ResponseChunkS) :=
  match search query with
  | .error _ => .panicked
  | .ok chunks =>
    match chunksToResponse files chunks with
    | .error _ => .panicked
    | .ok resp => .ok resp

inductive SvcErr where
  | file (e : FErr)
  | store (e : EmbErr)
deriving DecidableEq, Repr

structure ServiceState where
  files : List (Path × ProjectFileS)
  store : StoreS

/-- `Chunk` → `project_repository::Chunk` as consumed by `insert_file`
(spans to row/column/byte ranges, borrowed text to owned content). -/
def toSChunk (c : Chunk) : SChunk :=
  { row := ⟨c.start.row, c.endPos.row⟩
    column := ⟨c.start.column, c.endPos.column⟩
    byte := c.range
    content := c.text }

/-- `ProjectRpc::file_updated`: `create_or_update`, then `file_chunks`,
then `insert_file` — each `?` surfaces the error; state mutated before the
failing step persists (the service lives behind a `Mutex`). -/
def fileUpdatedM (fs : Path → Option (List Nat))
    (parse : List Nat → Option STree → Option STree)
    (hashFn : List Nat → List Nat)
    (em : List (List Nat) → Except EmbErr (List Emb))
    (σ : ServiceState) (p : Path) : ServiceState × Except SvcErr Unit :=
  match createOrUpdateM fs parse hashFn σ.files p with
  | .error e => (σ, .error (.file e))
  | .ok files =>
    let cs := (fileChunksM files p).map toSChunk
    let res := insertFileM em p cs σ.store
    (⟨files, res.1⟩,
      match res.2 with
      | .error e => .error (.store e)
      | .ok _ => .ok ())

/-- Forget a chunk row's `AUTOINCREMENT` primary key. -/
def stripChunkId (r : ChunkRow) : ChunkRow := { r with id := 0 }

/-- Forget a file row's `updated_at` timestamp. -/
def stripUpdatedAt (f : FileRow) : FileRow := { f with updatedAt := 0 }

/-- A one-file project used to exercise `FileUpdated` twice: source
`"aa"`, a tree with one child spanning the whole file, a constant parser
and a constant embedder. -/
def demoTree : STree := STree.node 0 2 ⟨0, 0⟩ ⟨0, 2⟩ [STree.node 0 2 ⟨0, 0⟩ ⟨0, 2⟩ []]

def demoState : ServiceState :=
  { files := [(⟨"lib", "rs"⟩,
      { path := ⟨"lib", "rs"⟩, text := [97, 97], hash := [97, 97], tree := demoTree })]
    store := { files := [], chunks := [], nextFileId := 1, nextChunkId := 1, now := 0 } }

def demoRun1 : ServiceState × Except SvcErr Unit :=
  fileUpdatedM (fun _ => some [97, 97]) (fun _ _ => some demoTree) (fun t => t)
    (fun l => .ok (l.map (fun _ => [1]))) demoState ⟨"lib", "rs"⟩

def demoRun2 : ServiceState × Except SvcErr Unit :=
  fileUpdatedM (fun _ => some [97, 97]) (fun _ _ => some demoTree) (fun t => t)
    (fun l => .ok (l.map (fun _ => [1]))) demoRun1.1 ⟨"lib", "rs"⟩

/-! # Part 2: theorems -/

theorem charCount_append (s t : List Nat) :
    charCount (s ++ t) = charCount s + charCount t := by
  simp [charCount, List.filter_append]

theorem charCount_le_length (s : List Nat) : charCount s ≤ s.length :=
  List.length_filter_le _ s

theorem listSlice_split (s : List Nat) {a b c : Nat} (hab : a ≤ b) (hbc : b ≤ c) :
    listSlice s a c = listSlice s a b ++ listSlice s b c := by
  unfold listSlice
  have hc : c - a = (b - a) + (c - b) := by omega
  rw [hc, List.take_add]
  congr 1
  rw [List.drop_drop]
  congr 2
  omega

theorem listSlice_length_le (s : List Nat) (a b : Nat) :
    (listSlice s a b).length ≤ b - a := by
  simp [listSlice]

/-! ### Step equations for `processChunksGo` -/

theorem processChunksGo_nil (source maxChunkSize : _) (last : Chunk) (cur : Option Chunk) :
    processChunksGo source maxChunkSize last cur [] = flushChunk cur := by
  rw [processChunksGo]

theorem processChunksGo_big (source maxChunkSize : _) (last : Chunk) (cur : Option Chunk)
    (child : STree) (rest : List STree)
    (h : child.endByte - child.startByte > maxChunkSize) :
    processChunksGo source maxChunkSize last cur (child :: rest) =
      flushChunk cur
        ++ processChunksGo source maxChunkSize last none child.children
        ++ processChunksGo source maxChunkSize (Chunk.fromNode source child) none rest := by
  rw [processChunksGo, if_pos h]

theorem processChunksGo_over (source maxChunkSize : _) (last : Chunk) (cur : Option Chunk)
    (child : STree) (rest : List STree)
    (h1 : ¬ child.endByte - child.startByte > maxChunkSize)
    (h2 : curSize source cur + chunkSizeR source ⟨child.startByte, child.endByte⟩
      > maxChunkSize) :
    processChunksGo source maxChunkSize last cur (child :: rest) =
      flushChunk cur
        ++ processChunksGo source maxChunkSize (Chunk.fromNode source child)
          (some (last.mergeEnd (Chunk.fromNode source child) source)) rest := by
  rw [processChunksGo, if_neg h1, if_pos h2]

theorem processChunksGo_fit_none (source maxChunkSize : _) (last : Chunk)
    (child : STree) (rest : List STree)
    (h1 : ¬ child.endByte - child.startByte > maxChunkSize)
    (h2 : ¬ curSize source none + chunkSizeR source ⟨child.startByte, child.endByte⟩
      > maxChunkSize) :
    processChunksGo source maxChunkSize last none (child :: rest) =
      processChunksGo source maxChunkSize (Chunk.fromNode source child)
        (some (last.mergeEnd (Chunk.fromNode source child) source)) rest := by
  rw [processChunksGo, if_neg h1, if_neg h2]

theorem processChunksGo_fit_nonempty (source maxChunkSize : _) (last c0 : Chunk)
    (child : STree) (rest : List STree)
    (h1 : ¬ child.endByte - child.startByte > maxChunkSize)
    (h2 : ¬ curSize source (some c0) + chunkSizeR source ⟨child.startByte, child.endByte⟩
      > maxChunkSize)
    (he : c0.isEmptyC = false) :
    processChunksGo source maxChunkSize last (some c0) (child :: rest) =
      processChunksGo source maxChunkSize (Chunk.fromNode source child)
        (some (c0.merge (last.mergeEnd (Chunk.fromNode source child) source) source)) rest := by
  rw [processChunksGo, if_neg h1, if_neg h2]
  simp [he]

theorem processChunksGo_fit_empty (source maxChunkSize : _) (last c0 : Chunk)
    (child : STree) (rest : List STree)
    (h1 : ¬ child.endByte - child.startByte > maxChunkSize)
    (h2 : ¬ curSize source (some c0) + chunkSizeR source ⟨child.startByte, child.endByte⟩
      > maxChunkSize)
    (he : c0.isEmptyC = true) :
    processChunksGo source maxChunkSize last (some c0) (child :: rest) =
      processChunksGo source maxChunkSize (Chunk.fromNode source child)
        (some (last.mergeEnd (Chunk.fromNode source child) source)) rest := by
  rw [processChunksGo, if_neg h1, if_neg h2]
  simp [he]

theorem orderedB_cons {lo ub : Nat} {c : STree} {cs : List STree} :
    orderedB lo ub (c :: cs) = true ↔
      lo ≤ c.startByte ∧ c.startByte ≤ c.endByte ∧ c.endByte ≤ ub ∧
        orderedB c.startByte c.endByte c.children = true ∧
        orderedB c.endByte ub cs = true := by
  rw [orderedB]
  simp [Bool.and_eq_true, and_assoc]

theorem tiledB_cons {pos : Nat} {c : STree} {cs : List STree} :
    tiledB pos (c :: cs) = true ↔
      c.startByte = pos ∧ c.startByte ≤ c.endByte ∧
        tiledB c.startByte c.children = true ∧ tiledB c.endByte cs = true := by
  rw [tiledB]
  simp [Bool.and_eq_true, and_assoc]

/-! ### Basic facts -/

theorem chunkSizeR_split (source : List Nat) {a b c : Nat} (hab : a ≤ b) (hbc : b ≤ c) :
    chunkSizeR source ⟨a, c⟩ = chunkSizeR source ⟨a, b⟩ + chunkSizeR source ⟨b, c⟩ := by
  unfold chunkSizeR
  rw [listSlice_split source hab hbc, charCount_append]

theorem chunkSizeR_le_byteLen (source : List Nat) (a b : Nat) :
    chunkSizeR source ⟨a, b⟩ ≤ b - a :=
  le_trans (charCount_le_length _) (listSlice_length_le source a b)

theorem mem_flushChunk {cur : Option Chunk} {x : Chunk}
    (h : x ∈ flushChunk cur) : cur = some x ∧ x.range.start < x.range.stop := by
  cases cur with
  | none => simp [flushChunk] at h
  | some c =>
    simp only [flushChunk] at h
    by_cases he : c.isEmptyC
    · rw [if_pos he] at h
      simp at h
    · rw [if_neg he] at h
      simp at h
      subst h
      refine ⟨rfl, ?_⟩
      simpa [Chunk.isEmptyC] using he

/-! ### Size bound on emitted chunks (for claim C3)

On a tree whose children tile their parent exactly, every chunk emitted by
the loop — flushed accumulators only, since oversize childless leaves emit
nothing — has character count at most `maxChunkSize`.  The invariant: the
accumulator always ends at the previous sibling's end byte (the tiling
cursor) and stays within the character budget. -/

theorem processChunksGo_size_bound (source : List Nat) (maxChunkSize : Nat)
    (last : Chunk) (cur : Option Chunk) (cs : List STree) :
    ∀ pos : Nat,
      tiledB pos cs = true →
      last.range.stop = pos →
      (∀ c, cur = some c →
        chunkSizeR source c.range ≤ maxChunkSize ∧ c.range.stop = pos ∧
          c.range.start ≤ c.range.stop) →
      ∀ x ∈ processChunksGo source maxChunkSize last cur cs,
        chunkSizeR source x.range ≤ maxChunkSize := by
  induction last, cur, cs using processChunksGo.induct source maxChunkSize with
  | case1 last cur =>
    intro pos _ht _hlast hcur x hx
    rw [processChunksGo_nil] at hx
    exact (hcur x (mem_flushChunk hx).1).1
  | case2 last cur child rest hbig ih1 ih2 =>
    intro pos ht hlast hcur x hx
    obtain ⟨hcp, hce, htc, htr⟩ := tiledB_cons.mp ht
    rw [processChunksGo_big source maxChunkSize last cur child rest hbig] at hx
    simp only [List.mem_append] at hx
    rcases hx with (hx | hx) | hx
    · exact (hcur x (mem_flushChunk hx).1).1
    · exact ih1 child.startByte htc (by omega) (by intro c h; cases h) x hx
    · exact ih2 child.endByte htr rfl (by intro c h; cases h) x hx
  | case3 last cur child rest hnotbig hover ih =>
    intro pos ht hlast hcur x hx
    obtain ⟨hcp, hce, _htc, htr⟩ := tiledB_cons.mp ht
    rw [processChunksGo_over source maxChunkSize last cur child rest hnotbig hover] at hx
    simp only [List.mem_append] at hx
    rcases hx with hx | hx
    · exact (hcur x (mem_flushChunk hx).1).1
    · refine ih child.endByte htr rfl ?_ x hx
      intro c hc
      rw [Option.some.injEq] at hc
      subst hc
      have hle := chunkSizeR_le_byteLen source child.startByte child.endByte
      refine ⟨?_, rfl, ?_⟩
      · show chunkSizeR source ⟨last.range.stop, child.endByte⟩ ≤ maxChunkSize
        rw [hlast, ← hcp]
        omega
      · show last.range.stop ≤ child.endByte
        omega
  | case4 last cur child rest hnotbig hnotover nc cu ih =>
    intro pos ht hlast hcur x hx
    obtain ⟨hcp, hce, _htc, htr⟩ := tiledB_cons.mp ht
    have hchild : chunkSizeR source ⟨child.startByte, child.endByte⟩
        = chunkSizeR source ⟨pos, child.endByte⟩ := by rw [hcp]
    cases cur with
    | none =>
      rw [processChunksGo_fit_none source maxChunkSize last child rest hnotbig hnotover] at hx
      refine ih child.endByte htr rfl ?_ x hx
      intro c hc
      rw [Option.some.injEq] at hc
      subst hc
      simp only [curSize] at hnotover
      refine ⟨?_, rfl, ?_⟩
      · show chunkSizeR source ⟨last.range.stop, child.endByte⟩ ≤ maxChunkSize
        rw [hlast, ← hcp]
        omega
      · show last.range.stop ≤ child.endByte
        omega
    | some c0 =>
      obtain ⟨hs0, he0, hse0⟩ := hcur c0 rfl
      have hsz : curSize source (some c0) = chunkSizeR source c0.range := rfl
      by_cases hemp : c0.isEmptyC
      · rw [processChunksGo_fit_empty source maxChunkSize last c0 child rest
          hnotbig hnotover hemp] at hx
        simp only [cu, nc, hemp] at ih
        refine ih child.endByte htr rfl ?_ x hx
        intro c hc
        replace hc : some (last.mergeEnd (Chunk.fromNode source child) source) = some c := hc
        rw [Option.some.injEq] at hc
        subst hc
        refine ⟨?_, rfl, ?_⟩
        · show chunkSizeR source ⟨last.range.stop, child.endByte⟩ ≤ maxChunkSize
          rw [hlast, ← hcp]
          omega
        · show last.range.stop ≤ child.endByte
          omega
      · have hemp' : c0.isEmptyC = false := by simpa using hemp
        rw [processChunksGo_fit_nonempty source maxChunkSize last c0 child rest
          hnotbig hnotover hemp'] at hx
        simp only [cu, nc, hemp'] at ih
        refine ih child.endByte htr rfl ?_ x hx
        intro c hc
        replace hc : some (c0.merge (last.mergeEnd (Chunk.fromNode source child) source) source)
            = some c := hc
        rw [Option.some.injEq] at hc
        subst hc
        have hsplit : chunkSizeR source ⟨c0.range.start, child.endByte⟩
            = chunkSizeR source ⟨c0.range.start, c0.range.stop⟩
              + chunkSizeR source ⟨c0.range.stop, child.endByte⟩ :=
          chunkSizeR_split source hse0 (by omega)
        have heta : chunkSizeR source ⟨c0.range.start, c0.range.stop⟩
            = chunkSizeR source c0.range := rfl
        have htail : chunkSizeR source ⟨c0.range.stop, child.endByte⟩
            = chunkSizeR source ⟨child.startByte, child.endByte⟩ := by
          rw [he0, ← hcp]
        refine ⟨?_, rfl, ?_⟩
        · show chunkSizeR source ⟨c0.range.start, child.endByte⟩ ≤ maxChunkSize
          omega
        · show c0.range.start ≤ child.endByte
          omega

/-! ### Ordering of emitted chunks (for claim C7)

On any tree whose children are listed in source order inside their parent's
span, consecutive emitted chunks satisfy `a.range.stop ≤ b.range.start`
(they may abut but never overlap), every emitted chunk is non-empty, and
everything stays inside the tracked window. -/

theorem chain'_flushChunk (R : Chunk → Chunk → Prop) (cur : Option Chunk) :
    List.Chain' R (flushChunk cur) := by
  cases cur with
  | none => simp [flushChunk]
  | some c =>
    by_cases he : c.isEmptyC
    · simp [flushChunk, he]
    · simp [flushChunk, he]

theorem processChunksGo_chain (source : List Nat) (maxChunkSize : Nat)
    (last : Chunk) (cur : Option Chunk) (cs : List STree) :
    ∀ lo ub F : Nat,
      orderedB lo ub cs = true →
      lo ≤ ub →
      last.range.stop ≤ lo →
      F ≤ last.range.stop →
      (∀ c, cur = some c → F ≤ c.range.start ∧ c.range.stop = last.range.stop) →
      List.Chain' (fun a b => a.range.stop ≤ b.range.start)
          (processChunksGo source maxChunkSize last cur cs) ∧
        ∀ x ∈ processChunksGo source maxChunkSize last cur cs,
          F ≤ x.range.start ∧ x.range.stop ≤ ub ∧ x.range.start < x.range.stop := by
  induction last, cur, cs using processChunksGo.induct source maxChunkSize with
  | case1 last cur =>
    intro lo ub F _hord hloub hlast hF hcur
    rw [processChunksGo_nil]
    refine ⟨chain'_flushChunk _ cur, ?_⟩
    intro x hx
    obtain ⟨hxc, hne⟩ := mem_flushChunk hx
    obtain ⟨h1, h2⟩ := hcur x hxc
    exact ⟨h1, by omega, hne⟩
  | case2 last cur child rest hbig ih1 ih2 =>
    intro lo ub F hord hloub hlast hF hcur
    obtain ⟨hlo, hse, hub, hordc, hordr⟩ := orderedB_cons.mp hord
    rw [processChunksGo_big source maxChunkSize last cur child rest hbig]
    obtain ⟨ch1, mem1⟩ := ih1 child.startByte child.endByte last.range.stop
      hordc hse (by omega) le_rfl (by intro c h; cases h)
    obtain ⟨ch2, mem2⟩ := ih2 child.endByte ub child.endByte
      hordr hub (le_of_eq rfl) le_rfl (by intro c h; cases h)
    constructor
    · rw [List.append_assoc, List.chain'_append]
      refine ⟨chain'_flushChunk _ cur, ?_, ?_⟩
      · rw [List.chain'_append]
        refine ⟨ch1, ch2, ?_⟩
        intro a ha b hb
        have hma := mem1 a (List.mem_of_mem_getLast? ha)
        have hmb := mem2 b (List.mem_of_mem_head? hb)
        omega
      · intro a ha b hb
        obtain ⟨hac, _⟩ := mem_flushChunk (List.mem_of_mem_getLast? ha)
        obtain ⟨_, hstop⟩ := hcur a hac
        have hmb : b ∈ processChunksGo source maxChunkSize last none child.children
            ++ processChunksGo source maxChunkSize (Chunk.fromNode source child) none rest :=
          List.mem_of_mem_head? hb
        rw [List.mem_append] at hmb
        rcases hmb with hmb | hmb
        · have := mem1 b hmb
          omega
        · have := mem2 b hmb
          omega
    · intro x hx
      rw [List.append_assoc, List.mem_append, List.mem_append] at hx
      rcases hx with hx | hx | hx
      · obtain ⟨hxc, hne⟩ := mem_flushChunk hx
        obtain ⟨h1, h2⟩ := hcur x hxc
        exact ⟨h1, by omega, hne⟩
      · have := mem1 x hx
        refine ⟨by omega, by omega, this.2.2⟩
      · have := mem2 x hx
        refine ⟨by omega, by omega, this.2.2⟩
  | case3 last cur child rest hnotbig hover ih =>
    intro lo ub F hord hloub hlast hF hcur
    obtain ⟨hlo, hse, hub, _hordc, hordr⟩ := orderedB_cons.mp hord
    rw [processChunksGo_over source maxChunkSize last cur child rest hnotbig hover]
    have hcur' : ∀ c,
        (some (last.mergeEnd (Chunk.fromNode source child) source) : Option Chunk) = some c →
          last.range.stop ≤ c.range.start ∧
            c.range.stop = (Chunk.fromNode source child).range.stop := by
      intro c hc
      rw [Option.some.injEq] at hc
      subst hc
      exact ⟨le_rfl, rfl⟩
    obtain ⟨ch1, mem1⟩ := ih child.endByte ub last.range.stop
      hordr hub (le_of_eq rfl) (by show last.range.stop ≤ child.endByte; omega) hcur'
    constructor
    · rw [List.chain'_append]
      refine ⟨chain'_flushChunk _ cur, ch1, ?_⟩
      intro a ha b hb
      obtain ⟨hac, _⟩ := mem_flushChunk (List.mem_of_mem_getLast? ha)
      obtain ⟨_, hstop⟩ := hcur a hac
      have := mem1 b (List.mem_of_mem_head? hb)
      omega
    · intro x hx
      rw [List.mem_append] at hx
      rcases hx with hx | hx
      · obtain ⟨hxc, hne⟩ := mem_flushChunk hx
        obtain ⟨h1, h2⟩ := hcur x hxc
        exact ⟨h1, by omega, hne⟩
      · have := mem1 x hx
        refine ⟨by omega, this.2.1, this.2.2⟩
  | case4 last cur child rest hnotbig hnotover nc cu ih =>
    intro lo ub F hord hloub hlast hF hcur
    obtain ⟨hlo, hse, hub, _hordc, hordr⟩ := orderedB_cons.mp hord
    cases cur with
    | none =>
      rw [processChunksGo_fit_none source maxChunkSize last child rest hnotbig hnotover]
      refine ih child.endByte ub F hordr hub (le_of_eq rfl)
        (by show F ≤ child.endByte; omega) ?_
      intro c hc
      replace hc : some (last.mergeEnd (Chunk.fromNode source child) source) = some c := hc
      rw [Option.some.injEq] at hc
      subst hc
      exact ⟨by show F ≤ last.range.stop; omega, rfl⟩
    | some c0 =>
      obtain ⟨hF0, hstop0⟩ := hcur c0 rfl
      by_cases hemp : c0.isEmptyC
      · rw [processChunksGo_fit_empty source maxChunkSize last c0 child rest
          hnotbig hnotover hemp]
        simp only [cu, nc, hemp] at ih
        refine ih child.endByte ub F hordr hub (le_of_eq rfl)
          (by show F ≤ child.endByte; omega) ?_
        intro c hc
        replace hc : some (last.mergeEnd (Chunk.fromNode source child) source) = some c := hc
        rw [Option.some.injEq] at hc
        subst hc
        exact ⟨by show F ≤ last.range.stop; omega, rfl⟩
      · have hemp' : c0.isEmptyC = false := by simpa using hemp
        rw [processChunksGo_fit_nonempty source maxChunkSize last c0 child rest
          hnotbig hnotover hemp']
        simp only [cu, nc, hemp'] at ih
        refine ih child.endByte ub F hordr hub (le_of_eq rfl)
          (by show F ≤ child.endByte; omega) ?_
        intro c hc
        replace hc : some (c0.merge (last.mergeEnd (Chunk.fromNode source child) source) source)
            = some c := hc
        rw [Option.some.injEq] at hc
        subst hc
        exact ⟨hF0, rfl⟩

theorem chain'_start_lt {l : List Chunk}
    (h1 : List.Chain' (fun a b => a.range.stop ≤ b.range.start) l)
    (h2 : ∀ c ∈ l, c.range.start < c.range.stop) :
    List.Chain' (fun a b => a.range.start < b.range.start) l := by
  induction l with
  | nil => simp
  | cons a l ih =>
    cases l with
    | nil => simp
    | cons b l2 =>
      rw [List.chain'_cons] at h1 ⊢
      obtain ⟨hab, h1'⟩ := h1
      refine ⟨?_, ih h1' ?_⟩
      · have := h2 a (by simp)
        omega
      · intro c hc
        exact h2 c (by simp [hc])

/-! ## Claim C3: size bound on emitted chunks -/

/-- **C3, counterexample.**  Source `"a   b"` (five bytes), a root whose two
leaf children are `a` (bytes `0..1`) and `b` (bytes `4..5`), limit 2.
Neither child exceeds the limit (each spans one character), yet the single
emitted chunk spans bytes `0..5` — five characters, over the limit — because
the accumulation test adds `chunk_size(current.range)` to the *child's own
span* and never counts the gap `"   "` that `merge_end` absorbs.  This
refutes the claim that the character-count test "bounds the whole emitted
span including any leading gap absorbed from the previous sibling". -/
theorem splitChunks_size_claim_counterexample :
    (splitChunks [97, 32, 32, 32, 98] 2
        (STree.node 0 5 ⟨0, 0⟩ ⟨0, 5⟩
          [STree.node 0 1 ⟨0, 0⟩ ⟨0, 1⟩ [], STree.node 4 5 ⟨0, 4⟩ ⟨0, 5⟩ []])).map
        (fun c => c.range) = [⟨0, 5⟩] ∧
      chunkSizeR [97, 32, 32, 32, 98] ⟨0, 5⟩ = 5 ∧
      chunkSizeR [97, 32, 32, 32, 98] ⟨0, 1⟩ = 1 ∧
      chunkSizeR [97, 32, 32, 32, 98] ⟨4, 5⟩ = 1 := by
  refine ⟨?_, by decide, by decide, by decide⟩
  simp [splitChunks, processChunksGo, STree.children, STree.startByte, STree.endByte,
    STree.startPoint, STree.endPoint, curSize, chunkSizeR, charCount, listSlice,
    isContinuationByte, Chunk.mergeEnd, Chunk.merge, Chunk.fromNode, flushChunk,
    Chunk.isEmptyC, defaultChunk, TextPosition.minP, TextPosition.maxP, TextPosition.leB]

/-- **C3 (amended).**  On a tree whose children exactly tile their parent's
span (`tiledB`: the first child starts at the cursor and consecutive
siblings abut, recursively), every chunk emitted by the chunker has
character count at most `max_chunk_size`, with no exception — an oversize
childless leaf is recursed into and, having no children, emits nothing at
all rather than being emitted as-is.  In general (with gaps between
siblings) the bound can be exceeded by the size of the absorbed gaps, and
the recursion trigger compares the child's *byte* length, not its
character count, against the limit. -/
theorem splitChunks_size_bound (source : List Nat) (maxChunkSize : Nat) (t : STree)
    (h : tiledB 0 t.children = true) :
    ∀ c ∈ splitChunks source maxChunkSize t,
      chunkSizeR source c.range ≤ maxChunkSize :=
  processChunksGo_size_bound source maxChunkSize defaultChunk none t.children 0 h rfl
    (by intro c hc; cases hc)

theorem splitChunks_size_bound_witness :
    tiledB 0 (STree.node 0 2 ⟨0, 0⟩ ⟨0, 2⟩
        [STree.node 0 1 ⟨0, 0⟩ ⟨0, 1⟩ [], STree.node 1 2 ⟨0, 1⟩ ⟨0, 2⟩ []]).children = true ∧
      ∀ c ∈ splitChunks [97, 98] 1
          (STree.node 0 2 ⟨0, 0⟩ ⟨0, 2⟩
            [STree.node 0 1 ⟨0, 0⟩ ⟨0, 1⟩ [], STree.node 1 2 ⟨0, 1⟩ ⟨0, 2⟩ []]),
        chunkSizeR [97, 98] c.range ≤ 1 := by
  have ht : tiledB 0 (STree.node 0 2 ⟨0, 0⟩ ⟨0, 2⟩
      [STree.node 0 1 ⟨0, 0⟩ ⟨0, 1⟩ [], STree.node 1 2 ⟨0, 1⟩ ⟨0, 2⟩ []]).children = true := by
    simp [tiledB, STree.children, STree.startByte, STree.endByte]
  exact ⟨ht, splitChunks_size_bound [97, 98] 1 _ ht⟩

/-! ## Claim C7: ordering, non-overlap, non-emptiness -/

/-- **C7.**  On a tree whose children are listed in source order within
their parent's span (`orderedB`), consecutive emitted chunks satisfy
`a.range.stop ≤ b.range.start` (non-overlapping, abutting allowed), the
chunks are strictly ordered by `byte_range.start`, no emitted chunk is
empty, and a childless root (an empty file) yields the empty list. -/
theorem splitChunks_ordered (source : List Nat) (maxChunkSize ub : Nat) (t : STree)
    (h : orderedB 0 ub t.children = true) :
    List.Chain' (fun a b => a.range.stop ≤ b.range.start)
        (splitChunks source maxChunkSize t) ∧
      List.Chain' (fun a b => a.range.start < b.range.start)
        (splitChunks source maxChunkSize t) ∧
      (∀ c ∈ splitChunks source maxChunkSize t, c.range.start < c.range.stop) ∧
      (t.children = [] → splitChunks source maxChunkSize t = []) := by
  obtain ⟨hch, hmem⟩ := processChunksGo_chain source maxChunkSize defaultChunk none
    t.children 0 ub 0 h (Nat.zero_le ub) le_rfl le_rfl (by intro c hc; cases hc)
  refine ⟨hch, chain'_start_lt hch ?_, ?_, ?_⟩
  · intro c hc
    exact (hmem c hc).2.2
  · intro c hc
    exact (hmem c hc).2.2
  · intro hnil
    show processChunksGo source maxChunkSize defaultChunk none t.children = []
    rw [hnil, processChunksGo_nil]
    rfl

theorem splitChunks_ordered_witness :
    orderedB 0 3 (STree.node 0 3 ⟨0, 0⟩ ⟨0, 3⟩
        [STree.node 0 1 ⟨0, 0⟩ ⟨0, 1⟩ [], STree.node 2 3 ⟨0, 2⟩ ⟨0, 3⟩ []]).children = true ∧
      List.Chain' (fun a b => a.range.stop ≤ b.range.start)
          (splitChunks [97, 32, 98] 1
            (STree.node 0 3 ⟨0, 0⟩ ⟨0, 3⟩
              [STree.node 0 1 ⟨0, 0⟩ ⟨0, 1⟩ [], STree.node 2 3 ⟨0, 2⟩ ⟨0, 3⟩ []])) ∧
      ∀ c ∈ splitChunks [97, 32, 98] 1
          (STree.node 0 3 ⟨0, 0⟩ ⟨0, 3⟩
            [STree.node 0 1 ⟨0, 0⟩ ⟨0, 1⟩ [], STree.node 2 3 ⟨0, 2⟩ ⟨0, 3⟩ []]),
        c.range.start < c.range.stop := by
  have ho : orderedB 0 3 (STree.node 0 3 ⟨0, 0⟩ ⟨0, 3⟩
      [STree.node 0 1 ⟨0, 0⟩ ⟨0, 1⟩ [], STree.node 2 3 ⟨0, 2⟩ ⟨0, 3⟩ []]).children = true := by
    simp [orderedB, STree.children, STree.startByte, STree.endByte]
  obtain ⟨h1, _h2, h3, _h4⟩ := splitChunks_ordered [97, 32, 98] 1 3 _ ho
  exact ⟨ho, h1, h3⟩

/-! ## Claim C8: `merge` / `merge_end` and the `start ≤ end` invariant -/

/-- **C8, counterexample.**  `self` spanning bytes `10..20` and `other`
spanning bytes `0..5` are each individually valid, but `merge` yields byte
range `10..5` and `merge_end` yields `20..5`: `start ≤ end` fails in byte
coordinates, because `merge`'s result runs from `self`'s start (resp. end)
to `other`'s end with no constraint relating the two chunks.  (In Rust the
slice `&source[10..5]` would panic outright.) -/
theorem merge_validity_counterexample :
    Chunk.validB ⟨[], ⟨10, 20⟩, ⟨1, 0⟩, ⟨2, 0⟩⟩ = true ∧
      Chunk.validB ⟨[], ⟨0, 5⟩, ⟨0, 0⟩, ⟨0, 5⟩⟩ = true ∧
      Chunk.validB
        (Chunk.merge ⟨[], ⟨10, 20⟩, ⟨1, 0⟩, ⟨2, 0⟩⟩ ⟨[], ⟨0, 5⟩, ⟨0, 0⟩, ⟨0, 5⟩⟩ []) = false ∧
      Chunk.validB
        (Chunk.mergeEnd ⟨[], ⟨10, 20⟩, ⟨1, 0⟩, ⟨2, 0⟩⟩ ⟨[], ⟨0, 5⟩, ⟨0, 0⟩, ⟨0, 5⟩⟩ []) = false := by
  decide

theorem leB_minP_maxP {p1 q1 p2 q2 : TextPosition}
    (h1 : p1.leB q1 = true) (h2 : p2.leB q2 = true) :
    (p1.minP p2).leB (q1.maxP q2) = true := by
  simp only [TextPosition.leB, decide_eq_true_eq] at h1 h2
  unfold TextPosition.minP TextPosition.maxP
  split_ifs with hA hB hB <;>
    (simp only [TextPosition.leB, decide_eq_true_eq] at *) <;> omega

/-- **C8 (amended).**  For individually valid chunks, the row/column half of
the invariant is preserved unconditionally by both `merge` and `merge_end`
(`min` of valid starts ≤ `max` of valid ends), but the byte half needs the
extra hypothesis that the result's byte range is not inverted:
`self.range.start ≤ other.range.end` for `merge` and
`self.range.end ≤ other.range.end` for `merge_end` — as holds at every call
site in `process_chunks`, where `other` lies at or after `self`. -/
theorem merge_mergeEnd_preserve_validity (self other : Chunk) (source : List Nat)
    (h1 : self.validB = true) (h2 : other.validB = true) :
    (self.range.start ≤ other.range.stop →
        (self.merge other source).validB = true) ∧
      (self.range.stop ≤ other.range.stop →
        (self.mergeEnd other source).validB = true) := by
  unfold Chunk.validB at h1 h2
  rw [Bool.and_eq_true] at h1 h2
  obtain ⟨_hb1, hp1⟩ := h1
  obtain ⟨_hb2, hp2⟩ := h2
  constructor
  · intro hle
    unfold Chunk.validB Chunk.merge
    rw [Bool.and_eq_true]
    exact ⟨decide_eq_true hle, leB_minP_maxP hp1 hp2⟩
  · intro hle
    unfold Chunk.validB Chunk.mergeEnd
    rw [Bool.and_eq_true]
    exact ⟨decide_eq_true hle, leB_minP_maxP hp1 hp2⟩

theorem merge_mergeEnd_preserve_validity_witness :
    Chunk.validB
        (Chunk.merge ⟨[], ⟨0, 1⟩, ⟨0, 0⟩, ⟨0, 1⟩⟩ ⟨[], ⟨1, 2⟩, ⟨0, 1⟩, ⟨0, 2⟩⟩ [97, 98]) = true ∧
      Chunk.validB
        (Chunk.mergeEnd ⟨[], ⟨0, 1⟩, ⟨0, 0⟩, ⟨0, 1⟩⟩ ⟨[], ⟨1, 2⟩, ⟨0, 1⟩, ⟨0, 2⟩⟩ [97, 98]) = true :=
  ⟨(merge_mergeEnd_preserve_validity ⟨[], ⟨0, 1⟩, ⟨0, 0⟩, ⟨0, 1⟩⟩ ⟨[], ⟨1, 2⟩, ⟨0, 1⟩, ⟨0, 2⟩⟩
      [97, 98] (by decide) (by decide)).1 (by decide),
    (merge_mergeEnd_preserve_validity ⟨[], ⟨0, 1⟩, ⟨0, 0⟩, ⟨0, 1⟩⟩ ⟨[], ⟨1, 2⟩, ⟨0, 1⟩, ⟨0, 2⟩⟩
      [97, 98] (by decide) (by decide)).2 (by decide)⟩

/-! ## Claim C1: `update()` and the stored text -/

/-- **C1 (bug evaluation).**  A file whose on-disk contents changed from
`[97]` to `[98, 98]`: `update()` succeeds, stores the hash of the *new*
contents and the new tree, yet leaves `text` at the stale `[97]` — the
assignment of `self.text` is missing from `ProjectFile::update`, so the
chunks subsequently produced by `chunks()` are spans of the new tree over
the old text, contradicting the claim that text and hash are replaced
together with the contents just read. -/
theorem update_keeps_stale_text :
    ProjectFile.updateM
        (fun _ => some [98, 98])
        (fun _ _ => some (STree.node 0 2 ⟨0, 0⟩ ⟨0, 2⟩ []))
        (fun t => t)
        { path := ⟨"lib", "rs"⟩, text := [97], hash := [97],
          tree := STree.node 0 1 ⟨0, 0⟩ ⟨0, 1⟩ [] }
      = .ok { path := ⟨"lib", "rs"⟩, text := [97], hash := [98, 98],
              tree := STree.node 0 2 ⟨0, 0⟩ ⟨0, 2⟩ [] } := rfl

/-! ## Claim C2: atomicity of `insert_file` -/

/-- **C2 (bug evaluation).**  A store holding one chunk row for the
pre-existing path: `insert_file` first deletes the path's chunk rows and
bumps `updated_at`, and only then embeds the new contents.  When the
embedding fails, the call returns the error with the old rows already
deleted and nothing inserted — the prior state is not retained, refuting
the claimed all-or-nothing behaviour (there is no transaction around the
delete-and-insert). -/
theorem insert_file_not_atomic :
    insertFileM (fun _ => .error .embeddingFailed) ⟨"lib", "rs"⟩
        [{ row := ⟨0, 0⟩, column := ⟨0, 1⟩, byte := ⟨0, 1⟩, content := [99] }]
        { files := [{ id := 1, path := ⟨"lib", "rs"⟩, createdAt := 0, updatedAt := 0 }],
          chunks := [{ id := 1, fileId := 1, startRow := 0, startColumn := 0, endRow := 0,
                       endColumn := 1, startByte := 0, endByte := 1, embeddings := [7] }],
          nextFileId := 2, nextChunkId := 2, now := 5 }
      = ({ files := [{ id := 1, path := ⟨"lib", "rs"⟩, createdAt := 0, updatedAt := 5 }],
           chunks := [], nextFileId := 2, nextChunkId := 2, now := 5 },
         .error .embeddingFailed) := rfl

/-! ## Claim C4: scan robustness -/

/-- **C4 (bug evaluation).**  A walk yielding two admitted `.rs` files
where the second one fails to parse: `ProjectFiles::new` propagates the
construction failure with `?` instead of skipping it, so the whole scan
returns an error and the healthy first file is not indexed either —
project bring-up aborts on a single malformed file, refuting the claimed
skip-and-continue behaviour. -/
theorem project_scan_aborts_on_bad_file :
    projectFilesNew
        (fun p => if p = ⟨"a", "rs"⟩ then some [97] else some [98])
        (fun c _ => if c = [97] then some (STree.node 0 1 ⟨0, 0⟩ ⟨0, 1⟩ []) else none)
        (fun t => t)
        [.ok ⟨⟨"a", "rs"⟩, true⟩, .ok ⟨⟨"b", "rs"⟩, true⟩]
      = .error .parseFailed := rfl

/-! ## Claim C5: `search_code` error mapping -/

/-- **C5 (bug evaluation).**  When the repository search fails (here:
embedding the query fails), the handler's
`service.repository.search(&query).unwrap()` panics the worker — the
outcome is a panic, not a reply, and in particular not the
`RpcError::Internal` reply the claim promises. -/
theorem search_code_panics_on_failure :
    searchCodeM ([] : List (Path × ProjectFileS))
        (fun _ => .error .embeddingFailed) [113]
      = .panicked := rfl

/-! ## Claim C9: hydration panics or drops -/

/-- **C9.**  `chunks_to_response` on an output chunk: when the path is
unknown to the file set, the span is silently dropped and processing of
the remaining spans continues; when the path is known but the stored byte
range is not a valid slice of the retained in-memory text (past its end,
inverted, or off a UTF-8 character boundary), the unchecked index
panics — the function neither drops the span nor returns an error
value. -/
theorem chunksToResponse_drops_or_panics
    (files : List (Path × ProjectFileS)) (c : OutputChunkS) (rest : List OutputChunkS) :
    (lookupFile files c.path = none →
        chunksToResponse files (c :: rest) = chunksToResponse files rest) ∧
      (∀ f, lookupFile files c.path = some f →
        sliceChecked f.text c.byte.start c.byte.stop = none →
        chunksToResponse files (c :: rest) = .error .panicked) := by
  constructor
  · intro h
    show (match lookupFile files c.path with
      | none => chunksToResponse files rest
      | some f =>
        match sliceChecked f.text c.byte.start c.byte.stop with
        | none => .error .panicked
        | some content =>
          match chunksToResponse files rest with
          | .error e => .error e
          | .ok out =>
            .ok (({ path := c.path
                    row := c.row
                    column := c.column
                    content := content } : ResponseChunkS) :: out)) =
      chunksToResponse files rest
    rw [h]
  · intro f hf hs
    show (match lookupFile files c.path with
      | none => chunksToResponse files rest
      | some f =>
        match sliceChecked f.text c.byte.start c.byte.stop with
        | none => .error .panicked
        | some content =>
          match chunksToResponse files rest with
          | .error e => .error e
          | .ok out =>
            .ok (({ path := c.path
                    row := c.row
                    column := c.column
                    content := content } : ResponseChunkS) :: out)) =
      .error .panicked
    rw [hf]
    show (match sliceChecked f.text c.byte.start c.byte.stop with
      | none => (.error .panicked : Except PanicErr (List ResponseChunkS))
      | some content =>
        match chunksToResponse files rest with
        | .error e => .error e
        | .ok out =>
          .ok (({ path := c.path
                  row := c.row
                  column := c.column
                  content := content } : ResponseChunkS) :: out)) =
      .error .panicked
    rw [hs]

/-- Witness for C9, on the situation C1 makes possible: the retained text
is the single byte `[97]` while the stored span reaches byte 9. -/
theorem chunksToResponse_drops_or_panics_witness :
    chunksToResponse
        [(⟨"lib", "rs"⟩,
          { path := ⟨"lib", "rs"⟩, text := [97], hash := [97],
            tree := STree.node 0 1 ⟨0, 0⟩ ⟨0, 1⟩ [] })]
        [{ path := ⟨"lib", "rs"⟩, row := ⟨0, 0⟩, column := ⟨0, 9⟩, byte := ⟨0, 9⟩ }]
      = .error .panicked :=
  (chunksToResponse_drops_or_panics
      [(⟨"lib", "rs"⟩,
        { path := ⟨"lib", "rs"⟩, text := [97], hash := [97],
          tree := STree.node 0 1 ⟨0, 0⟩ ⟨0, 1⟩ [] })]
      { path := ⟨"lib", "rs"⟩, row := ⟨0, 0⟩, column := ⟨0, 9⟩, byte := ⟨0, 9⟩ } []).2
    { path := ⟨"lib", "rs"⟩, text := [97], hash := [97],
      tree := STree.node 0 1 ⟨0, 0⟩ ⟨0, 1⟩ [] } rfl rfl

/-! ## Claim C6: processing `FileUpdated(p)` twice -/

theorem mkChunkRows_fileId (fid : Int) (n : Int) (l : List (SChunk × Emb)) :
    ∀ r ∈ mkChunkRows fid n l, r.fileId = fid := by
  induction l generalizing n with
  | nil =>
    intro r hr
    simp [mkChunkRows] at hr
  | cons x rest ih =>
    intro r hr
    obtain ⟨c, e⟩ := x
    simp only [mkChunkRows, List.mem_cons] at hr
    rcases hr with rfl | hr
    · rfl
    · exact ih (n + 1) r hr

theorem mkChunkRows_strip (fid : Int) (n m : Int) (l : List (SChunk × Emb)) :
    (mkChunkRows fid n l).map stripChunkId = (mkChunkRows fid m l).map stripChunkId := by
  induction l generalizing n m with
  | nil => rfl
  | cons x rest ih =>
    obtain ⟨c, e⟩ := x
    simp only [mkChunkRows, List.map_cons]
    rw [ih (n + 1) (m + 1)]
    rfl

theorem mkChunkRows_filter_ne (fid : Int) (n : Int) (l : List (SChunk × Emb)) :
    (mkChunkRows fid n l).filter (fun c => decide (c.fileId ≠ fid)) = [] := by
  rw [List.filter_eq_nil_iff]
  intro r hr
  have := mkChunkRows_fileId fid n l r hr
  simp [this]

/-- Running `insert_file` a second time with the same path and chunk list
(and the same pure embedder) reproduces the first run's rows for every
file — same order, same `file_id`, same span columns, same embeddings —
except that the chunk rows receive fresh `AUTOINCREMENT` ids and the file
row a fresh `updated_at`. -/
theorem insertFileM_twice (em : List (List Nat) → Except EmbErr (List Emb))
    (p : Path) (cs : List SChunk) (s : StoreS) (fid : Int)
    (hfree : ∀ r ∈ s.chunks, r.fileId ≠ s.nextFileId)
    (hok : (insertFileM em p cs s).2 = .ok fid) :
    (insertFileM em p cs (insertFileM em p cs s).1).2 = .ok fid ∧
      (insertFileM em p cs (insertFileM em p cs s).1).1.chunks.map stripChunkId
        = (insertFileM em p cs s).1.chunks.map stripChunkId ∧
      (insertFileM em p cs (insertFileM em p cs s).1).1.files.map stripUpdatedAt
        = (insertFileM em p cs s).1.files.map stripUpdatedAt ∧
      (insertFileM em p cs (insertFileM em p cs s).1).1.nextFileId
        = (insertFileM em p cs s).1.nextFileId ∧
      (insertFileM em p cs (insertFileM em p cs s).1).1.now
        = (insertFileM em p cs s).1.now := by
  cases hem : em (cs.map (fun c => c.content)) with
  | error e =>
    have : (insertFileM em p cs s).2 = .error e := by
      simp [insertFileM, hem]
    rw [this] at hok
    exact absurd hok (by simp)
  | ok embs =>
    cases hf : s.files.find? (fun f => decide (f.path = p)) with
    | some prev =>
      have h1c : (insertFileM em p cs s).1.chunks
          = s.chunks.filter (fun c => decide (c.fileId ≠ prev.id))
            ++ mkChunkRows prev.id s.nextChunkId (cs.zip embs) := by
        simp [insertFileM, hem, hf]
      have h1f : (insertFileM em p cs s).1.files
          = s.files.map (fun f =>
              if f.id = prev.id then { f with updatedAt := s.now } else f) := by
        simp [insertFileM, hem, hf]
      have h1nf : (insertFileM em p cs s).1.nextFileId = s.nextFileId := by
        simp [insertFileM, hem, hf]
      have h1now : (insertFileM em p cs s).1.now = s.now := by
        simp [insertFileM, hem, hf]
      have h1r : (insertFileM em p cs s).2 = .ok prev.id := by
        simp [insertFileM, hem, hf]
      have hfid : prev.id = fid := by
        rw [h1r] at hok
        simpa using hok
      have hg : ((fun f : FileRow => decide (f.path = p)) ∘ (fun f =>
          if f.id = prev.id then { f with updatedAt := s.now } else f))
          = fun f : FileRow => decide (f.path = p) := by
        funext f
        by_cases h : f.id = prev.id <;> simp [h]
      have hf2 : (insertFileM em p cs s).1.files.find? (fun f => decide (f.path = p))
          = some { prev with updatedAt := s.now } := by
        rw [h1f, List.find?_map, hg, hf]
        simp
      obtain ⟨s1, hs1⟩ : ∃ t, (insertFileM em p cs s).1 = t := ⟨_, rfl⟩
      rw [hs1] at h1c h1f h1nf h1now hf2 ⊢
      have h2c : (insertFileM em p cs s1).1.chunks
          = s1.chunks.filter (fun c => decide (c.fileId ≠ prev.id))
            ++ mkChunkRows prev.id s1.nextChunkId (cs.zip embs) := by
        simp [insertFileM, hem, hf2]
      have h2f : (insertFileM em p cs s1).1.files
          = s1.files.map (fun f =>
              if f.id = prev.id then { f with updatedAt := s1.now } else f) := by
        simp [insertFileM, hem, hf2]
      have h2nf : (insertFileM em p cs s1).1.nextFileId = s1.nextFileId := by
        simp [insertFileM, hem, hf2]
      have h2now : (insertFileM em p cs s1).1.now = s1.now := by
        simp [insertFileM, hem, hf2]
      have h2r : (insertFileM em p cs s1).2 = .ok prev.id := by
        simp [insertFileM, hem, hf2]
      refine ⟨by rw [h2r, hfid], ?_, ?_, h2nf, h2now⟩
      · rw [h2c, h1c, List.filter_append, List.filter_filter,
          mkChunkRows_filter_ne prev.id s.nextChunkId (cs.zip embs), List.append_nil]
        rw [List.filter_congr (fun a _ha => by rw [Bool.and_self])]
        rw [List.map_append, List.map_append]
        rw [mkChunkRows_strip prev.id s1.nextChunkId s.nextChunkId]
      · rw [h2f, List.map_map]
        apply List.map_congr_left
        intro f _hf
        by_cases h : f.id = prev.id <;> simp [stripUpdatedAt, h]
    | none =>
      have h1c : (insertFileM em p cs s).1.chunks
          = s.chunks ++ mkChunkRows s.nextFileId s.nextChunkId (cs.zip embs) := by
        simp [insertFileM, hem, hf]
      have h1f : (insertFileM em p cs s).1.files
          = s.files ++
            [{ id := s.nextFileId
               path := p
               createdAt := s.now
               updatedAt := s.now }] := by
        simp [insertFileM, hem, hf]
      have h1nf : (insertFileM em p cs s).1.nextFileId = s.nextFileId + 1 := by
        simp [insertFileM, hem, hf]
      have h1now : (insertFileM em p cs s).1.now = s.now := by
        simp [insertFileM, hem, hf]
      have h1r : (insertFileM em p cs s).2 = .ok s.nextFileId := by
        simp [insertFileM, hem, hf]
      have hfid : s.nextFileId = fid := by
        rw [h1r] at hok
        simpa using hok
      have hf2 : (insertFileM em p cs s).1.files.find? (fun f => decide (f.path = p))
          = some { id := s.nextFileId
                   path := p
                   createdAt := s.now
                   updatedAt := s.now } := by
        rw [h1f, List.find?_append, hf]
        simp
      obtain ⟨s1, hs1⟩ : ∃ t, (insertFileM em p cs s).1 = t := ⟨_, rfl⟩
      rw [hs1] at h1c h1f h1nf h1now hf2 ⊢
      have h2c : (insertFileM em p cs s1).1.chunks
          = s1.chunks.filter (fun c => decide (c.fileId ≠ s.nextFileId))
            ++ mkChunkRows s.nextFileId s1.nextChunkId (cs.zip embs) := by
        simp [insertFileM, hem, hf2]
      have h2f : (insertFileM em p cs s1).1.files
          = s1.files.map (fun f =>
              if f.id = s.nextFileId then { f with updatedAt := s1.now } else f) := by
        simp [insertFileM, hem, hf2]
      have h2nf : (insertFileM em p cs s1).1.nextFileId = s1.nextFileId := by
        simp [insertFileM, hem, hf2]
      have h2now : (insertFileM em p cs s1).1.now = s1.now := by
        simp [insertFileM, hem, hf2]
      have h2r : (insertFileM em p cs s1).2 = .ok s.nextFileId := by
        simp [insertFileM, hem, hf2]
      refine ⟨by rw [h2r, hfid], ?_, ?_, h2nf, h2now⟩
      · rw [h2c, h1c, List.filter_append,
          mkChunkRows_filter_ne s.nextFileId s.nextChunkId (cs.zip embs), List.append_nil]
        have hkeep : s.chunks.filter (fun c => decide (c.fileId ≠ s.nextFileId))
            = s.chunks := by
          rw [List.filter_eq_self]
          intro r hr
          simpa using hfree r hr
        rw [hkeep, List.map_append, List.map_append]
        rw [mkChunkRows_strip s.nextFileId s1.nextChunkId s.nextChunkId]
      · rw [h2f, List.map_map]
        apply List.map_congr_left
        intro f _hf
        by_cases h : f.id = s.nextFileId <;> simp [stripUpdatedAt, h]

theorem find?_replace (l : List (Path × ProjectFileS)) (p : Path) (f : ProjectFileS)
    (h : (l.find? (fun e => decide (e.1 = p))).isSome) :
    (l.map (fun q => if q.1 = p then (q.1, f) else q)).find? (fun e => decide (e.1 = p))
      = some (p, f) := by
  induction l with
  | nil => simp at h
  | cons q rest ih =>
    by_cases hq : q.1 = p
    · rw [List.map_cons, if_pos hq, List.find?_cons_of_pos _ (by simp [hq]), hq]
    · rw [List.map_cons, if_neg hq, List.find?_cons_of_neg _ (by simp [hq])]
      apply ih
      rw [List.find?_cons_of_neg _ (by simp [hq])] at h
      exact h

theorem replace_idem (l : List (Path × ProjectFileS)) (p : Path) (f : ProjectFileS) :
    (l.map (fun q => if q.1 = p then (q.1, f) else q)).map
        (fun q => if q.1 = p then (q.1, f) else q)
      = l.map (fun q => if q.1 = p then (q.1, f) else q) := by
  rw [List.map_map]
  apply List.map_congr_left
  intro q _hq
  by_cases h : q.1 = p <;> simp [h]

theorem replace_of_none (l : List (Path × ProjectFileS)) (p : Path) (f : ProjectFileS)
    (h : ∀ e ∈ l, ¬ (e.1 = p)) :
    l.map (fun q => if q.1 = p then (q.1, f) else q) = l := by
  induction l with
  | nil => rfl
  | cons q rest ih =>
    rw [List.map_cons, if_neg (h q (by simp)), ih (fun e he => h e (by simp [he]))]

/-- After a successful `create_or_update(p)`, running it again re-reads the
same contents and re-parses them; when the parser's output does not depend
on the reparse hint (tree-sitter on unchanged text), the file map is left
exactly as it was. -/
theorem createOrUpdateM_fixpoint (fs : Path → Option (List Nat))
    (parse : List Nat → Option STree → Option STree)
    (hashFn : List Nat → List Nat)
    (files0 files1 : List (Path × ProjectFileS)) (p : Path)
    (hparse : ∀ c h1 h2, parse c h1 = parse c h2)
    (h : createOrUpdateM fs parse hashFn files0 p = .ok files1) :
    createOrUpdateM fs parse hashFn files1 p = .ok files1 := by
  cases hf : files0.find? (fun e => decide (e.1 = p)) with
  | some e0 =>
    cases hu : ProjectFile.updateM fs parse hashFn e0.2 with
    | error err =>
      have : createOrUpdateM fs parse hashFn files0 p = .error err := by
        simp [createOrUpdateM, hf, hu]
      rw [this] at h
      exact absurd h (by simp)
    | ok f1 =>
      have heq : createOrUpdateM fs parse hashFn files0 p
          = .ok (files0.map (fun q => if q.1 = p then (q.1, f1) else q)) := by
        simp [createOrUpdateM, hf, hu]
      rw [heq] at h
      rw [Except.ok.injEq] at h
      subst h
      cases hfs : fs e0.2.path with
      | none => simp [ProjectFile.updateM, hfs] at hu
      | some c0 =>
        cases hp : parse c0 (some e0.2.tree) with
        | none => simp [ProjectFile.updateM, hfs, hp] at hu
        | some t1 =>
          have hf1 : f1 = { e0.2 with hash := hashFn c0, tree := t1 } := by
            simp [ProjectFile.updateM, hfs, hp] at hu
            exact hu.symm
          subst hf1
          have hfind2 : (files0.map (fun q => if q.1 = p then
              (q.1, { e0.2 with hash := hashFn c0, tree := t1 }) else q)).find?
                (fun e => decide (e.1 = p))
              = some (p, { e0.2 with hash := hashFn c0, tree := t1 }) := by
            apply find?_replace
            rw [hf]
            rfl
          have hu2 : ProjectFile.updateM fs parse hashFn
              { e0.2 with hash := hashFn c0, tree := t1 }
              = .ok { e0.2 with hash := hashFn c0, tree := t1 } := by
            have hp2 : parse c0 (some t1) = some t1 := by
              rw [hparse c0 (some t1) (some e0.2.tree), hp]
            simp [ProjectFile.updateM, hfs, hp2]
          have : createOrUpdateM fs parse hashFn
              (files0.map (fun q => if q.1 = p then
                (q.1, { e0.2 with hash := hashFn c0, tree := t1 }) else q)) p
              = .ok ((files0.map (fun q => if q.1 = p then
                  (q.1, { e0.2 with hash := hashFn c0, tree := t1 }) else q)).map
                    (fun q => if q.1 = p then
                      (q.1, { e0.2 with hash := hashFn c0, tree := t1 }) else q)) := by
            simp [createOrUpdateM, hfind2, hu2]
          rw [this, replace_idem]
  | none =>
    cases hn : ProjectFile.newM fs parse hashFn p with
    | error err =>
      have : createOrUpdateM fs parse hashFn files0 p = .error err := by
        simp [createOrUpdateM, hf, hn]
      rw [this] at h
      exact absurd h (by simp)
    | ok f1 =>
      have heq : createOrUpdateM fs parse hashFn files0 p = .ok (files0 ++ [(p, f1)]) := by
        simp [createOrUpdateM, hf, hn]
      rw [heq] at h
      rw [Except.ok.injEq] at h
      subst h
      cases hl : extToLanguage p.ext with
      | none => simp [ProjectFile.newM, hl] at hn
      | some lang =>
        cases hfs : fs p with
        | none => simp [ProjectFile.newM, hl, hfs] at hn
        | some c0 =>
          cases hp : parse c0 none with
          | none => simp [ProjectFile.newM, hl, hfs, hp] at hn
          | some t1 =>
            have hf1 : f1 = { path := p, text := c0, hash := hashFn c0, tree := t1 } := by
              simp [ProjectFile.newM, hl, hfs, hp] at hn
              exact hn.symm
            subst hf1
            have hfind2 : (files0 ++ [(p, ({ path := p, text := c0, hash := hashFn c0, tree := t1 } : ProjectFileS))]).find? (fun e => decide (e.1 = p)) = some (p, { path := p, text := c0, hash := hashFn c0, tree := t1 }) := by
              rw [List.find?_append, hf]
              simp
            have hu2 : ProjectFile.updateM fs parse hashFn
                { path := p, text := c0, hash := hashFn c0, tree := t1 }
                = .ok { path := p, text := c0, hash := hashFn c0, tree := t1 } := by
              have hp2 : parse c0 (some t1) = some t1 := by
                rw [hparse c0 (some t1) none, hp]
              simp [ProjectFile.updateM, hfs, hp2]
            have hrun : createOrUpdateM fs parse hashFn
                (files0 ++ [(p, { path := p, text := c0, hash := hashFn c0, tree := t1 })]) p
                = .ok ((files0 ++ [(p, ({ path := p, text := c0, hash := hashFn c0, tree := t1 } : ProjectFileS))]).map
                      (fun q : Path × ProjectFileS => if q.1 = p then
                        (q.1, { path := p, text := c0, hash := hashFn c0, tree := t1 })
                        else q)) := by
              simp [createOrUpdateM, hfind2, hu2]
            rw [hrun, List.map_append]
            rw [replace_of_none files0 p _
              (fun e he => by simpa using List.find?_eq_none.mp hf e he)]
            simp

/-- **C6 (amended).**  Processing `FileUpdated(p)` twice with no
filesystem change (the read and parse oracles are fixed pure functions;
the parse result does not depend on the reparse hint, as for tree-sitter
on unchanged text): the second message succeeds, leaves the file set
exactly as the first left it, and leaves the store's rows identical modulo
`updated_at` *and modulo the chunk-row primary key*: every row after the
first update reappears after the second with the same `file_id`, span
columns and embedding, but `chunk_id` is a fresh `AUTOINCREMENT` value —
the delete-and-reinsert never reuses primary keys, so the claim's "same
chunk_id" clause fails (see the counterexample) and bit-identity holds
only after forgetting ids.  The freshness hypothesis rules out stray chunk
rows already carrying the store's next file id. -/
theorem fileUpdated_idempotent_mod_ids (fs : Path → Option (List Nat))
    (parse : List Nat → Option STree → Option STree)
    (hashFn : List Nat → List Nat)
    (em : List (List Nat) → Except EmbErr (List Emb))
    (σ0 : ServiceState) (p : Path)
    (hparse : ∀ (c : List Nat) (h1 h2 : Option STree), parse c h1 = parse c h2)
    (hfree : ∀ r ∈ σ0.store.chunks, r.fileId ≠ σ0.store.nextFileId)
    (hok : (fileUpdatedM fs parse hashFn em σ0 p).2 = .ok ()) :
    (fileUpdatedM fs parse hashFn em (fileUpdatedM fs parse hashFn em σ0 p).1 p).2
        = .ok () ∧
      (fileUpdatedM fs parse hashFn em (fileUpdatedM fs parse hashFn em σ0 p).1 p).1.files
        = (fileUpdatedM fs parse hashFn em σ0 p).1.files ∧
      (fileUpdatedM fs parse hashFn em
          (fileUpdatedM fs parse hashFn em σ0 p).1 p).1.store.chunks.map stripChunkId
        = (fileUpdatedM fs parse hashFn em σ0 p).1.store.chunks.map stripChunkId ∧
      (fileUpdatedM fs parse hashFn em
          (fileUpdatedM fs parse hashFn em σ0 p).1 p).1.store.files.map stripUpdatedAt
        = (fileUpdatedM fs parse hashFn em σ0 p).1.store.files.map stripUpdatedAt := by
  cases hcu : createOrUpdateM fs parse hashFn σ0.files p with
  | error e =>
    have : (fileUpdatedM fs parse hashFn em σ0 p).2 = .error (.file e) := by
      simp [fileUpdatedM, hcu]
    rw [this] at hok
    exact absurd hok (by simp)
  | ok files1 =>
    have h1 : fileUpdatedM fs parse hashFn em σ0 p
        = (⟨files1, (insertFileM em p ((fileChunksM files1 p).map toSChunk) σ0.store).1⟩,
          match (insertFileM em p ((fileChunksM files1 p).map toSChunk) σ0.store).2 with
          | .error e => .error (.store e)
          | .ok _ => .ok ()) := by
      unfold fileUpdatedM
      rw [hcu]
    cases hins : (insertFileM em p ((fileChunksM files1 p).map toSChunk) σ0.store).2 with
    | error e =>
      rw [h1, hins] at hok
      simp at hok
    | ok fid =>
      obtain ⟨hB1, hB2, hB3, _, _⟩ :=
        insertFileM_twice em p ((fileChunksM files1 p).map toSChunk) σ0.store fid hfree hins
      have hcu2 := createOrUpdateM_fixpoint fs parse hashFn σ0.files files1 p hparse hcu
      obtain ⟨σ1, hσ1⟩ : ∃ t, (fileUpdatedM fs parse hashFn em σ0 p).1 = t := ⟨_, rfl⟩
      rw [h1] at hσ1
      have hσ1' : (⟨files1,
          (insertFileM em p ((fileChunksM files1 p).map toSChunk) σ0.store).1⟩ : ServiceState)
          = σ1 := hσ1
      have hσ1f : σ1.files = files1 := by rw [← hσ1']
      have hσ1s : σ1.store
          = (insertFileM em p ((fileChunksM files1 p).map toSChunk) σ0.store).1 := by
        rw [← hσ1']
      rw [h1]
      rw [hσ1]
      rw [← hσ1s] at hB1 hB2 hB3
      have h2 : fileUpdatedM fs parse hashFn em σ1 p
          = (⟨files1, (insertFileM em p ((fileChunksM files1 p).map toSChunk) σ1.store).1⟩,
            match (insertFileM em p ((fileChunksM files1 p).map toSChunk) σ1.store).2 with
            | .error e => .error (.store e)
            | .ok _ => .ok ()) := by
        unfold fileUpdatedM
        rw [hσ1f, hcu2]
      rw [h2]
      refine ⟨?_, ?_, ?_, ?_⟩
      · show (match (insertFileM em p ((fileChunksM files1 p).map toSChunk) σ1.store).2 with
          | .error e => (.error (.store e) : Except SvcErr Unit)
          | .ok _ => .ok ()) = .ok ()
        rw [hB1]
      · show files1 = σ1.files
        rw [hσ1f]
      · exact hB2
      · exact hB3

/-- **C6, counterexample.**  Processing `FileUpdated` twice on the demo
project with no filesystem change: both messages succeed and the rows
agree once chunk ids are forgotten, but the single chunk row has primary
key 1 after the first update and primary key 2 after the second —
`insert_file` deletes and reinserts the rows and `AUTOINCREMENT` never
reuses a key, so no row after the second update is identical (including
`chunk_id`) to the row after the first, refuting the claim as stated. -/
theorem file_updated_twice_changes_chunk_ids :
    demoRun1.2 = .ok () ∧ demoRun2.2 = .ok () ∧
      demoRun1.1.store.chunks.map (fun r => r.id) = [1] ∧
      demoRun2.1.store.chunks.map (fun r => r.id) = [2] ∧
      demoRun1.1.store.chunks.map stripChunkId
        = demoRun2.1.store.chunks.map stripChunkId := by
  refine ⟨?_, ?_, ?_, ?_, ?_⟩ <;>
    simp [demoRun2, demoRun1, demoState, demoTree, fileUpdatedM, createOrUpdateM,
      ProjectFile.updateM, fileChunksM, lookupFile, ProjectFile.chunksM, splitChunks,
      processChunksGo, STree.children, STree.startByte, STree.endByte, STree.startPoint,
      STree.endPoint, curSize, chunkSizeR, charCount, listSlice, isContinuationByte,
      Chunk.mergeEnd, Chunk.merge, Chunk.fromNode, flushChunk, Chunk.isEmptyC,
      defaultChunk, TextPosition.minP, TextPosition.maxP, TextPosition.leB, toSChunk,
      insertFileM, mkChunkRows, stripChunkId]

theorem fileUpdated_idempotent_mod_ids_witness :
    demoRun2.2 = .ok () ∧
      demoRun2.1.files = demoRun1.1.files ∧
      demoRun2.1.store.chunks.map stripChunkId
        = demoRun1.1.store.chunks.map stripChunkId ∧
      demoRun2.1.store.files.map stripUpdatedAt
        = demoRun1.1.store.files.map stripUpdatedAt :=
  fileUpdated_idempotent_mod_ids (fun _ => some [97, 97]) (fun _ _ => some demoTree)
    (fun t => t) (fun l => .ok (l.map (fun _ => [1]))) demoState ⟨"lib", "rs"⟩
    (fun _c _h1 _h2 => rfl) (by simp [demoState])
    (by simp [demoState, demoTree, fileUpdatedM, createOrUpdateM,
      ProjectFile.updateM, fileChunksM, lookupFile, ProjectFile.chunksM, splitChunks,
      processChunksGo, STree.children, STree.startByte, STree.endByte, STree.startPoint,
      STree.endPoint, curSize, chunkSizeR, charCount, listSlice, isContinuationByte,
      Chunk.mergeEnd, Chunk.merge, Chunk.fromNode, flushChunk, Chunk.isEmptyC,
      defaultChunk, TextPosition.minP, TextPosition.maxP, TextPosition.leB, toSChunk,
      insertFileM, mkChunkRows])

end LocalCodeSearch
